import Mathlib

/-!
Verification of the BookToNote OCR scripts (ocr_worker.py, ocr_engine.py,
surya_engine.py, qwen_vl_engine.py).

The Python sources are shallowly embedded: strings are `String` (logically a
`List Char` in this toolchain), floating-point confidences and coordinates are
modelled as exact rationals `ℚ`, Python lists are `List`, and the imperative
loops become structural recursions that mirror the source statement by
statement.  File-system and model-inference effects are represented by
explicit traces or by parameters, so that every definition is executable.
-/

namespace BookToNote

/-! ### Python string primitives

Python's `str.strip()` / `str.split()` treat the ASCII whitespace characters
space, tab, newline, carriage return, vertical tab and form feed as
separators.  We model them on `List Char` / `String`. -/

/-- The ASCII whitespace set used by Python's `strip` and argument-less
`split`. -/
def pySpace (c : Char) : Bool :=
  c = ' ' || c = '\t' || c = '\n' || c = '\r' || c = '\x0b' || c = '\x0c'

/-- Python `str.strip()` on a character list: drop leading and trailing
whitespace. -/
def stripChars (l : List Char) : List Char :=
  ((l.dropWhile pySpace).reverse.dropWhile pySpace).reverse

/-- Python `str.strip()` on a `String`. -/
def pyStrip (s : String) : String :=
  ⟨stripChars s.data⟩

/-! ### Structured layout reconstruction (ocr_worker.py / ocr_engine.py)

`run_ocr` in `ocr_worker.py` receives parallel lists `rec_texts`,
`rec_scores`, `rec_boxes` from PaddleOCR and turns them into paragraphs. -/

/-- A bounding box `(x0, y0, x1, y1)` as handed back by the recognizers;
`bbox[1]` is `y0` and `bbox[3]` is `y1`. -/
structure Bbox where
  x0 : ℚ
  y0 : ℚ
  x1 : ℚ
  y1 : ℚ
deriving DecidableEq

/-- The vertical key of line `i`: the code uses
`(bbox[1] + bbox[3]) / 2` when `i < len(rec_boxes)` and the fallback
`i * 10` otherwise. -/
def yKey (boxes : List Bbox) (i : ℕ) : ℚ :=
  match boxes[i]? with
  | some b => (b.y0 + b.y1) / 2
  | none => (i : ℚ) * 10

/-- The body of the worker's extraction loop for index `i` and raw text
`text`: `confidence = rec_scores[i] if i < len(rec_scores) else 0`, then
`if text and confidence > 0.5: lines.append((y_pos, text.strip()))`.
Python's truthiness test `if text` checks the raw, untrimmed text. -/
def lineAt (scores : List ℚ) (boxes : List Bbox) (i : ℕ) (text : String) :
    Option (ℚ × String) :=
  let confidence := scores.getD i 0
  if text ≠ "" ∧ confidence > 1/2 then
    some (yKey boxes i, pyStrip text)
  else
    none

/-- The worker's filtered line list (`lines` after the `for i, text in
enumerate(rec_texts)` loop). -/
def extractLines (texts : List String) (scores : List ℚ) (boxes : List Bbox) :
    List (ℚ × String) :=
  texts.enum.filterMap fun p => lineAt scores boxes p.1 p.2

/-- A recognized line of the surya backend: text, confidence and a bounding
box (always present there). -/
structure SuryaLine where
  text : String
  confidence : ℚ
  bbox : Bbox
deriving DecidableEq

/-- The surya extraction loop: `text = text_line.text.strip();
if text and text_line.confidence > 0.5: lines.append(((bbox[1]+bbox[3])/2,
text))`.  Here the emptiness test is on the already stripped text. -/
def suryaLineAt (l : SuryaLine) : Option (ℚ × String) :=
  let text := pyStrip l.text
  if text ≠ "" ∧ l.confidence > 1/2 then
    some ((l.bbox.y0 + l.bbox.y1) / 2, text)
  else
    none

/-- Surya's filtered line list. -/
def suryaExtractLines (ls : List SuryaLine) : List (ℚ × String) :=
  ls.filterMap suryaLineAt

/-- `lines.sort(key=lambda x: x[0])`: Python's sort is a stable merge sort
keyed on the vertical position. -/
def sortLines (lines : List (ℚ × String)) : List (ℚ × String) :=
  lines.mergeSort fun a b => decide (a.1 ≤ b.1)

/-- The paragraph-grouping loop of `run_ocr`, carried state:
accumulated `paragraphs`, `current_paragraph`, `last_y`. -/
def groupAux (gapT : ℚ) : List (ℚ × String) → List String → List String →
    Option ℚ → List String
  | [], paras, cur, _ =>
    if cur = [] then paras else paras ++ [String.intercalate " " cur]
  | (y, t) :: rest, paras, cur, lastY =>
    match lastY with
    | some y0 =>
      if y - y0 > gapT ∧ cur ≠ [] then
        groupAux gapT rest (paras ++ [String.intercalate " " cur]) [t] (some y)
      else
        groupAux gapT rest paras (cur ++ [t]) (some y)
    | none => groupAux gapT rest paras (cur ++ [t]) (some y)

/-- `run_ocr`'s paragraph grouping with gap threshold `gapT` (the sources
hardcode `40`). -/
def groupParagraphs (gapT : ℚ) (lines : List (ℚ × String)) : List String :=
  groupAux gapT lines [] [] none

/-- The gap threshold used by every structured backend in the repository. -/
def GAP_THRESHOLD : ℚ := 40

/-- Declarative counterpart of the grouping loop: split the sorted line list
into chunks exactly before each line whose key exceeds its predecessor's key
by more than `gapT`. -/
def gapSplit (gapT : ℚ) : List (ℚ × String) → List (List (ℚ × String))
  | [] => []
  | [l] => [[l]]
  | a :: b :: rest =>
    if b.1 - a.1 > gapT then
      [a] :: gapSplit gapT (b :: rest)
    else
      match gapSplit gapT (b :: rest) with
      | c :: cs => (a :: c) :: cs
      | [] => [[a]]

/-- The text-assembly part of the structured `run_ocr`: filter, sort, group,
and join into the full text and paragraph list (for a nonempty result the
full text is the paragraphs joined by a blank line). -/
def runOcrStructured (texts : List String) (scores : List ℚ)
    (boxes : List Bbox) : String × List String :=
  let lines := extractLines texts scores boxes
  if lines = [] then ("", [])
  else
    let sorted := sortLines lines
    let paragraphs := groupParagraphs GAP_THRESHOLD sorted
    (String.intercalate "\n\n" paragraphs, paragraphs)

/-! ### Image resizing (ocr_worker.py and qwen_vl_engine.py)

Dimensions are natural numbers; the floating-point `scale` is modelled as an
exact rational.  Python's `int(...)` on the nonnegative products is the
floor. -/

/-- Maximum dimension for OCR processing in `ocr_worker.py` (longer side). -/
def MAX_OCR_DIMENSION : ℕ := 2200

/-- Maximum image dimension in `qwen_vl_engine.py` (resize guard). -/
def MAX_IMAGE_SIZE : ℕ := 1024

/-- Dimension arithmetic of `resize_image_if_needed` in `ocr_worker.py`:
the result dimensions together with the returned resized flag.  `cap` is the
module constant `MAX_OCR_DIMENSION` there. -/
def resize_image_if_needed (cap w h : ℕ) : (ℕ × ℕ) × Bool :=
  let max_dim := max w h
  if max_dim ≤ cap then ((w, h), false)
  else
    let scale : ℚ := (cap : ℚ) / (max_dim : ℚ)
    let new_width := (⌊(w : ℚ) * scale⌋).toNat
    let new_height := (⌊(h : ℚ) * scale⌋).toNat
    ((new_width, new_height), true)

/-- Dimension arithmetic of `resize_image_if_needed` in `qwen_vl_engine.py`:
guard `width <= MAX_IMAGE_SIZE and height <= MAX_IMAGE_SIZE`, ratio
`min(cap / width, cap / height)`.  `cap` is `MAX_IMAGE_SIZE` there. -/
def qwen_resize_image_if_needed (cap w h : ℕ) : ℕ × ℕ :=
  if w ≤ cap ∧ h ≤ cap then (w, h)
  else
    let ratio : ℚ := min ((cap : ℚ) / (w : ℚ)) ((cap : ℚ) / (h : ℚ))
    ((⌊(w : ℚ) * ratio⌋).toNat, (⌊(h : ℚ) * ratio⌋).toNat)

/-! ### Free-text reconstruction (qwen_vl_engine.py)

The Qwen engine receives one decoded string and splits it into paragraphs:
split on `"\n\n"`; if that yields a single fragment, split on `"\n"`
instead; normalize each fragment with `" ".join(p.split())`; drop empties;
rejoin with `"\n\n"`.  We work on `List Char`. -/

/-- Python `sep.join(ws)` on character lists. -/
def joinSep (sep : List Char) : List (List Char) → List Char
  | [] => []
  | [w] => w
  | w :: ws => w ++ sep ++ joinSep sep ws

/-- Attach a character to the front of the first fragment of a split
result. -/
def consFirst (c : Char) : List (List Char) → List (List Char)
  | r :: rs => (c :: r) :: rs
  | [] => [[c]]

/-- Python `s.split("\n\n")`: split at each non-overlapping occurrence of
two consecutive newlines, scanning left to right, keeping empty fragments. -/
def splitTwoNl : List Char → List (List Char)
  | [] => [[]]
  | '\n' :: '\n' :: rest => [] :: splitTwoNl rest
  | c :: rest => consFirst c (splitTwoNl rest)

/-- Python `s.split("\n")`: split at each newline, keeping empty
fragments. -/
def splitOneNl : List Char → List (List Char)
  | [] => [[]]
  | c :: rest =>
    if c = '\n' then [] :: splitOneNl rest
    else consFirst c (splitOneNl rest)

/-- Python `s.split()`: maximal runs of non-whitespace characters. -/
def pyWords : List Char → List (List Char)
  | [] => []
  | c :: rest =>
    if pySpace c then pyWords rest
    else
      match rest with
      | [] => [[c]]
      | d :: _ =>
        if pySpace d then [c] :: pyWords rest
        else consFirst c (pyWords rest)

/-- Fragment normalization `" ".join(p.split())`: collapse whitespace runs
to single spaces and trim. -/
def normalizeFrag (p : List Char) : List Char :=
  joinSep [' '] (pyWords p)

/-- The raw fragment list of the free-text path: split on the blank-line
separator, and re-split on single newlines when that yields exactly one
fragment. -/
def rawFragments (s : List Char) : List (List Char) :=
  let raw := splitTwoNl s
  if raw.length = 1 then splitOneNl s else raw

/-- Normalize the fragments and drop the ones that become empty. -/
def cleanFragments (raws : List (List Char)) : List (List Char) :=
  (raws.map normalizeFrag).filter (fun p => p ≠ [])

/-- The free-text layout reconstruction of `qwen_vl_engine.run_ocr`,
returning the rebuilt full text and the paragraph list. -/
def reconstructFreeText (s : List Char) : List Char × List (List Char) :=
  let paragraphs := cleanFragments (rawFragments s)
  (joinSep ['\n', '\n'] paragraphs, paragraphs)

/-! ### The worker loop (ocr_worker.py `main`)

JSON decoding and the recognizer are external; they enter as parameters.
`DecodeResult` models the three ways `json.loads(line)` followed by
dictionary access can go: a dictionary (with its optional `image_path`), a
`JSONDecodeError`, or a later exception caught by the generic handler. -/

/-- A parsed request: the only recognized field. -/
structure WRequest where
  image_path : Option String
deriving DecidableEq

/-- A protocol response line. -/
structure WResponse where
  success : Bool
  text : Option String
  paragraphs : Option (List String)
  error : Option String
deriving DecidableEq

/-- The failure response `{"success": false, "error": msg}`. -/
def errorResponse (msg : String) : WResponse :=
  ⟨false, none, none, some msg⟩

/-- Outcome of `json.loads` on a stripped line, as seen by the loop. -/
inductive DecodeResult where
  | ok (req : WRequest)
  | jsonError (e : String)
  | otherError (e : String)
deriving DecidableEq

/-- The response the loop body computes for a non-blank line: parse, then
process; `JSONDecodeError` becomes an `Invalid JSON:` failure and any other
exception an `Unexpected error:` failure. -/
def responseFor (decode : String → DecodeResult)
    (process : WRequest → WResponse) (stripped : String) : WResponse :=
  match decode stripped with
  | .ok req => process req
  | .jsonError e => errorResponse ("Invalid JSON: " ++ e)
  | .otherError e => errorResponse ("Unexpected error: " ++ e)

/-- One iteration of `for line in sys.stdin`: strip the line, skip it when
empty, otherwise produce the response to print. -/
def handleLine (decode : String → DecodeResult)
    (process : WRequest → WResponse) (line : String) : Option WResponse :=
  let stripped := pyStrip line
  if stripped = "" then none
  else some (responseFor decode process stripped)

/-- The responses the worker writes for a list of input lines, in order. -/
def workerRun (decode : String → DecodeResult)
    (process : WRequest → WResponse) : List String → List WResponse
  | [] => []
  | line :: rest =>
    match handleLine decode process line with
    | none => workerRun decode process rest
    | some r => r :: workerRun decode process rest

/-- An observable event of the worker loop. -/
inductive WEvent where
  | readLine (line : String)
  | writeResponse (r : WResponse)
deriving DecidableEq

/-- The full event trace of the worker loop: each line is read, and its
response (if any) is written before the next line is read. -/
def workerTrace (decode : String → DecodeResult)
    (process : WRequest → WResponse) : List String → List WEvent
  | [] => []
  | line :: rest =>
    match handleLine decode process line with
    | none => WEvent.readLine line :: workerTrace decode process rest
    | some r =>
      WEvent.readLine line :: WEvent.writeResponse r ::
        workerTrace decode process rest

/-- The responses contained in a trace, in order. -/
def traceWrites : List WEvent → List WResponse :=
  List.filterMap fun e =>
    match e with
    | WEvent.writeResponse r => some r
    | WEvent.readLine _ => none

/-- Strict request/response alternation: every read of a non-blank line is
immediately followed by exactly one write, blank lines produce nothing, and
no write happens without a preceding read. -/
def fifoOk : List WEvent → Bool
  | [] => true
  | WEvent.writeResponse _ :: _ => false
  | WEvent.readLine l :: rest =>
    if pyStrip l = "" then fifoOk rest
    else
      match rest with
      | WEvent.writeResponse _ :: rest2 => fifoOk rest2
      | _ => false

/-! ### Temp-file handling (ocr_worker.py `process_request`,
qwen_vl_engine.py `run_ocr`) -/

/-- The raster format an engine writes its working image in. -/
inductive ImageFormat where
  | png
  | jpeg (quality : ℕ)
deriving DecidableEq

/-- The worker's per-request temp path
`f"/tmp/ocr_input_{int(time.time() * 1000000)}.png"`, as a function of the
microsecond timestamp. -/
def workerTempPath (t : ℕ) : String :=
  "/tmp/ocr_input_" ++ toString t ++ ".png"

/-- The worker always saves the working image with `save(output_path,
'PNG')`. -/
def workerSave (t : ℕ) : String × ImageFormat :=
  (workerTempPath t, ImageFormat.png)

/-- When the Qwen engine resizes, it writes
`image.save("/tmp/qwen_vl_resized.jpg", quality=95)`: a JPEG at a fixed
path. -/
def qwenResizedSave : String × ImageFormat :=
  ("/tmp/qwen_vl_resized.jpg", ImageFormat.jpeg 95)

/-- A file-system side effect of `process_request`. -/
inductive FsOp where
  | createTemp (path : String)
  | deleteTemp (path : String)
deriving DecidableEq

/-- How the preprocessing and recognition inside the `try` block can end:
`run_ocr` returning, or `resize_image_if_needed` / `run_ocr` raising. -/
inductive RunOutcome where
  | returns (full_text : String) (paragraphs : List String)
  | raises (e : String)
deriving DecidableEq

/-- `process_request` from `ocr_worker.py`: validation, temp-file creation,
the `try/except/finally` around resize and recognition, and the unconditional
cleanup.  Returns the response and the trace of temp-file operations.
`now_us` is the microsecond timestamp and `outcome` stands for the external
recognition call. -/
def process_request (image_path : Option String) (file_exists : Bool)
    (now_us : ℕ) (outcome : RunOutcome) : WResponse × List FsOp :=
  match image_path with
  | none => (errorResponse "Missing image_path", [])
  | some p =>
    if p = "" then (errorResponse "Missing image_path", [])
    else if file_exists then
      let temp_path := workerTempPath now_us
      let response :=
        match outcome with
        | RunOutcome.raises e => errorResponse e
        | RunOutcome.returns full_text paragraphs =>
          if pyStrip full_text = "" then errorResponse "No text detected"
          else ⟨true, some full_text, some paragraphs, none⟩
      (response, [FsOp.createTemp temp_path, FsOp.deleteTemp temp_path])
    else (errorResponse ("File not found: " ++ p), [])

/-- Every temp file created in the trace is deleted later in the trace. -/
def releasedAll : List FsOp → Bool
  | [] => true
  | FsOp.createTemp p :: rest =>
    decide (FsOp.deleteTemp p ∈ rest) && releasedAll rest
  | FsOp.deleteTemp _ :: rest => releasedAll rest

/-! ## Worker-loop lemmas -/

theorem workerTrace_writes (decode : String → DecodeResult)
    (process : WRequest → WResponse) (lines : List String) :
    traceWrites (workerTrace decode process lines) =
      workerRun decode process lines := by
  induction lines with
  | nil => rfl
  | cons l rest ih =>
    simp only [workerTrace, workerRun]
    cases h : handleLine decode process l with
    | none => simpa [traceWrites] using ih
    | some r => simpa [traceWrites] using ih

theorem workerRun_eq_map_filter (decode : String → DecodeResult)
    (process : WRequest → WResponse) (lines : List String) :
    workerRun decode process lines =
      (lines.filter fun l => decide (pyStrip l ≠ "")).map
        (fun l => responseFor decode process (pyStrip l)) := by
  induction lines with
  | nil => rfl
  | cons l rest ih =>
    simp only [workerRun, handleLine, List.filter_cons]
    by_cases h : pyStrip l = "" <;> simp [h, ih]

theorem fifoOk_read_blank (l : String) (t : List WEvent)
    (h : pyStrip l = "") :
    fifoOk (WEvent.readLine l :: t) = fifoOk t := by
  cases t with
  | nil => simp [fifoOk, h]
  | cons e t2 => cases e <;> simp [fifoOk, h]

theorem fifoOk_read_write (l : String) (r : WResponse) (t : List WEvent)
    (h : pyStrip l ≠ "") :
    fifoOk (WEvent.readLine l :: WEvent.writeResponse r :: t) = fifoOk t := by
  simp [fifoOk, h]

theorem fifoOk_workerTrace (decode : String → DecodeResult)
    (process : WRequest → WResponse) (lines : List String) :
    fifoOk (workerTrace decode process lines) = true := by
  induction lines with
  | nil => rfl
  | cons l rest ih =>
    simp only [workerTrace, handleLine]
    by_cases h : pyStrip l = ""
    · simpa [h, fifoOk_read_blank l _ h] using ih
    · simpa [h, fifoOk_read_write l _ _ h] using ih

theorem workerRun_append (decode : String → DecodeResult)
    (process : WRequest → WResponse) (xs ys : List String) :
    workerRun decode process (xs ++ ys) =
      workerRun decode process xs ++ workerRun decode process ys := by
  induction xs with
  | nil => rfl
  | cons l rest ih =>
    simp only [List.cons_append, workerRun]
    cases handleLine decode process l <;> simp [ih]

/-- Claim C3: for every sequence of input lines, the worker's event trace
alternates strictly (each non-blank request line is read, its single
response is written, and only then is the next line read), and the written
responses are exactly one per non-blank request line, in request order. -/
theorem claim_c3_worker_fifo (decode : String → DecodeResult)
    (process : WRequest → WResponse) (lines : List String) :
    fifoOk (workerTrace decode process lines) = true ∧
    traceWrites (workerTrace decode process lines) =
      workerRun decode process lines ∧
    workerRun decode process lines =
      (lines.filter fun l => decide (pyStrip l ≠ "")).map
        (fun l => responseFor decode process (pyStrip l)) :=
  ⟨fifoOk_workerTrace decode process lines,
   workerTrace_writes decode process lines,
   workerRun_eq_map_filter decode process lines⟩

/-- Claim C4: a line that fails JSON decoding produces exactly one failure
response whose error message begins with the text of the form
`Invalid JSON:`, and the loop continues: the lines before and after it are
processed exactly as they would be on their own. -/
theorem claim_c4_invalid_json (decode : String → DecodeResult)
    (process : WRequest → WResponse) (pre post : List String)
    (l : String) (e : String) (hne : pyStrip l ≠ "")
    (hdec : decode (pyStrip l) = DecodeResult.jsonError e) :
    workerRun decode process (pre ++ l :: post) =
      workerRun decode process pre ++
        errorResponse ("Invalid JSON: " ++ e) ::
          workerRun decode process post ∧
    "Invalid JSON: " ++ e = "Invalid JSON:" ++ (" " ++ e) := by
  constructor
  · rw [workerRun_append]
    simp [workerRun, handleLine, hne, responseFor, hdec]
  · rw [← String.append_assoc]
    rw [show "Invalid JSON:" ++ " " = "Invalid JSON: " from rfl]

/-- Witness for C4 at a concrete decoder, processor and line list. -/
theorem claim_c4_invalid_json_witness :
    workerRun (fun _ => DecodeResult.jsonError "oops")
        (fun _ => errorResponse "x") (["a"] ++ "b" :: ["c"]) =
      workerRun (fun _ => DecodeResult.jsonError "oops")
          (fun _ => errorResponse "x") ["a"] ++
        errorResponse ("Invalid JSON: " ++ "oops") ::
          workerRun (fun _ => DecodeResult.jsonError "oops")
            (fun _ => errorResponse "x") ["c"] ∧
    "Invalid JSON: " ++ "oops" = "Invalid JSON:" ++ (" " ++ "oops") :=
  claim_c4_invalid_json (fun _ => DecodeResult.jsonError "oops")
    (fun _ => errorResponse "x") ["a"] ["c"] "b" "oops"
    (by decide) rfl

/-- Claim C10: a line that is empty after stripping is read but produces no
response at all; the loop silently proceeds to the rest of the input. -/
theorem claim_c10_blank_line_skipped (decode : String → DecodeResult)
    (process : WRequest → WResponse) (l : String) (rest : List String)
    (hblank : pyStrip l = "") :
    workerTrace decode process (l :: rest) =
      WEvent.readLine l :: workerTrace decode process rest ∧
    workerRun decode process (l :: rest) =
      workerRun decode process rest := by
  constructor
  · simp [workerTrace, handleLine, hblank]
  · simp [workerRun, handleLine, hblank]

/-- Witness for C10 on a whitespace-only line. -/
theorem claim_c10_blank_line_skipped_witness :
    workerTrace (fun _ => DecodeResult.jsonError "bad")
        (fun _ => errorResponse "x") ("  \t " :: ["{}"]) =
      WEvent.readLine "  \t " ::
        workerTrace (fun _ => DecodeResult.jsonError "bad")
          (fun _ => errorResponse "x") ["{}"] ∧
    workerRun (fun _ => DecodeResult.jsonError "bad")
        (fun _ => errorResponse "x") ("  \t " :: ["{}"]) =
      workerRun (fun _ => DecodeResult.jsonError "bad")
        (fun _ => errorResponse "x") ["{}"] :=
  claim_c10_blank_line_skipped (fun _ => DecodeResult.jsonError "bad")
    (fun _ => errorResponse "x") "  \t " ["{}"] (by decide)

/-! ## Temp-file lifecycle (C8) -/

/-- Claim C8: for every request — missing path, missing file, recognition
success, empty text, or an exception from resize or recognition — every
working-image temp file created by `process_request` is deleted by the time
the response is produced. -/
theorem claim_c8_temp_released (image_path : Option String)
    (file_exists : Bool) (now_us : ℕ) (outcome : RunOutcome) :
    releasedAll (process_request image_path file_exists now_us outcome).2 =
      true := by
  cases image_path with
  | none => rfl
  | some p =>
    by_cases hp : p = "" <;>
      cases file_exists <;>
        cases outcome <;>
          simp [process_request, releasedAll, hp]

/-! ## Decimal representations are injective (towards C7) -/

/-- The decimal digit string of a natural number, most significant digit
first; this is what `Nat.toDigitsCore` computes with sufficient fuel. -/
def decDigits (n : ℕ) : List Char :=
  if n < 10 then [Nat.digitChar n]
  else decDigits (n / 10) ++ [Nat.digitChar (n % 10)]
termination_by n
decreasing_by
  exact Nat.div_lt_self (by omega) (by omega)

theorem toDigitsCore_eq_decDigits :
    ∀ (fuel n : ℕ) (ds : List Char), n < fuel →
      Nat.toDigitsCore 10 fuel n ds = decDigits n ++ ds := by
  intro fuel
  induction fuel with
  | zero => intro n ds h; omega
  | succ f ih =>
    intro n ds h
    rw [Nat.toDigitsCore]
    by_cases h10 : n / 10 = 0
    · have hn : n < 10 := by
        rcases Nat.lt_or_ge n 10 with hlt | hge
        · exact hlt
        · exact absurd h10 (by
            have : 0 < n / 10 := Nat.div_pos hge (by omega)
            omega)
      rw [decDigits, if_pos hn, Nat.mod_eq_of_lt hn]
      simp [h10]
    · have hge : 10 ≤ n := by
        rcases Nat.lt_or_ge n 10 with hlt | h2
        · exact absurd (Nat.div_eq_of_lt hlt) h10
        · exact h2
      have hlt : n / 10 < f := by
        have h1 : n / 10 < n := Nat.div_lt_self (by omega) (by omega)
        omega
      rw [if_neg h10, ih (n / 10) _ hlt]
      conv_rhs => rw [decDigits]
      rw [if_neg (show ¬n < 10 by omega)]
      simp

/-- The value of a decimal digit string. -/
def decVal (l : List Char) : ℕ :=
  l.foldl (fun a c => 10 * a + (c.toNat - Char.toNat '0')) 0

theorem digitVal_digitChar :
    ∀ d, d < 10 → (Nat.digitChar d).toNat - Char.toNat '0' = d := by
  decide

theorem decVal_append_digit (l : List Char) (c : Char) :
    decVal (l ++ [c]) = 10 * decVal l + (c.toNat - Char.toNat '0') := by
  simp [decVal, List.foldl_append]

theorem decVal_decDigits (n : ℕ) : decVal (decDigits n) = n := by
  induction n using Nat.strong_induction_on with
  | _ n ih =>
    by_cases h : n < 10
    · rw [decDigits, if_pos h]
      simpa [decVal] using digitVal_digitChar n h
    · rw [decDigits, if_neg h, decVal_append_digit,
        ih (n / 10) (Nat.div_lt_self (by omega) (by omega)),
        digitVal_digitChar (n % 10) (Nat.mod_lt n (by omega))]
      have := Nat.div_add_mod n 10
      omega

theorem decDigits_injective {a b : ℕ} (h : decDigits a = decDigits b) :
    a = b := by
  have := congrArg decVal h
  rwa [decVal_decDigits, decVal_decDigits] at this

theorem toDigits_eq_decDigits (n : ℕ) :
    Nat.toDigits 10 n = decDigits n := by
  have := toDigitsCore_eq_decDigits (n + 1) n [] (Nat.lt_succ_self n)
  simpa [Nat.toDigits] using this

theorem natRepr_data_injective {a b : ℕ}
    (h : (Nat.repr a).data = (Nat.repr b).data) : a = b := by
  simp only [Nat.repr, List.asString, toDigits_eq_decDigits] at h
  exact decDigits_injective h

theorem workerTempPath_injective {t u : ℕ}
    (h : workerTempPath t = workerTempPath u) : t = u := by
  have hdata := congrArg String.data h
  simp only [workerTempPath, String.data_append] at hdata
  have h1 := List.append_cancel_right hdata
  have h2 : (toString t).data = (toString u).data :=
    List.append_cancel_left h1
  exact natRepr_data_injective h2

/-- Claim C7 fails on the Qwen engine: when that path resizes, it writes the
working image as a JPEG (quality 95) at the fixed path
`/tmp/qwen_vl_resized.jpg` — not losslessly as PNG, and not under a
per-request collision-resistant name. -/
theorem claim_c7_counterexample :
    qwenResizedSave = ("/tmp/qwen_vl_resized.jpg", ImageFormat.jpeg 95) ∧
    ImageFormat.jpeg 95 ≠ ImageFormat.png :=
  ⟨rfl, by decide⟩

/-- Claim C7 (amended): the worker path writes the working image as PNG
under the per-request path `/tmp/ocr_input_<timestamp μs>.png`, and distinct
timestamps give distinct paths; the Qwen path instead writes a JPEG of
quality 95 at the fixed path `/tmp/qwen_vl_resized.jpg`. -/
theorem claim_c7_amended (t u : ℕ) (hne : t ≠ u) :
    workerSave t = (workerTempPath t, ImageFormat.png) ∧
    workerTempPath t ≠ workerTempPath u ∧
    qwenResizedSave = ("/tmp/qwen_vl_resized.jpg", ImageFormat.jpeg 95) :=
  ⟨rfl, fun h => hne (workerTempPath_injective h), rfl⟩

/-- Witness for the amended C7 at timestamps 1 and 2. -/
theorem claim_c7_amended_witness :
    (1 : ℕ) ≠ 2 ∧
    (workerSave 1 = (workerTempPath 1, ImageFormat.png) ∧
     workerTempPath 1 ≠ workerTempPath 2 ∧
     qwenResizedSave = ("/tmp/qwen_vl_resized.jpg", ImageFormat.jpeg 95)) :=
  ⟨by decide, claim_c7_amended 1 2 (by decide)⟩

/-! ## Line filtering (C1) -/

theorem lineAt_eq_pos (scores : List ℚ) (boxes : List Bbox) (i : ℕ)
    (text : String) (h : text ≠ "" ∧ scores.getD i 0 > 1/2) :
    lineAt scores boxes i text = some (yKey boxes i, pyStrip text) := by
  show (if text ≠ "" ∧ scores.getD i 0 > 1/2 then
    some (yKey boxes i, pyStrip text) else none) = _
  rw [if_pos h]

theorem lineAt_eq_neg (scores : List ℚ) (boxes : List Bbox) (i : ℕ)
    (text : String) (h : ¬(text ≠ "" ∧ scores.getD i 0 > 1/2)) :
    lineAt scores boxes i text = none := by
  show (if text ≠ "" ∧ scores.getD i 0 > 1/2 then
    some (yKey boxes i, pyStrip text) else none) = _
  rw [if_neg h]

theorem filterMap_lineAt_eq (scores : List ℚ) (boxes : List Bbox)
    (l : List (ℕ × String)) :
    l.filterMap (fun p => lineAt scores boxes p.1 p.2) =
      (l.filter fun p => decide (p.2 ≠ "" ∧ scores.getD p.1 0 > 1/2)).map
        (fun p => (yKey boxes p.1, pyStrip p.2)) := by
  induction l with
  | nil => rfl
  | cons p rest ih =>
    simp only [List.filterMap_cons, List.filter_cons]
    by_cases hc : p.2 ≠ "" ∧ scores.getD p.1 0 > 1/2
    · rw [lineAt_eq_pos scores boxes p.1 p.2 hc, if_pos (decide_eq_true hc)]
      rw [List.map_cons, ih]
    · rw [lineAt_eq_neg scores boxes p.1 p.2 hc,
        if_neg (fun hd => hc (of_decide_eq_true hd))]
      exact ih

theorem extractLines_eq_filter_map (texts : List String) (scores : List ℚ)
    (boxes : List Bbox) :
    extractLines texts scores boxes =
      (texts.enum.filter fun p =>
        decide (p.2 ≠ "" ∧ scores.getD p.1 0 > 1/2)).map
        (fun p => (yKey boxes p.1, pyStrip p.2)) :=
  filterMap_lineAt_eq scores boxes texts.enum

theorem suryaExtractLines_eq_filter_map (ls : List SuryaLine) :
    suryaExtractLines ls =
      (ls.filter fun l =>
        decide (pyStrip l.text ≠ "" ∧ l.confidence > 1/2)).map
        (fun l => ((l.bbox.y0 + l.bbox.y1) / 2, pyStrip l.text)) := by
  induction ls with
  | nil => rfl
  | cons l rest ih =>
    simp only [suryaExtractLines, List.filterMap_cons, List.filter_cons]
    by_cases hc : pyStrip l.text ≠ "" ∧ l.confidence > 1/2
    · rw [show suryaLineAt l =
          some ((l.bbox.y0 + l.bbox.y1) / 2, pyStrip l.text) by
            show (if pyStrip l.text ≠ "" ∧ l.confidence > 1/2 then
              some ((l.bbox.y0 + l.bbox.y1) / 2, pyStrip l.text)
              else none) = _
            rw [if_pos hc],
        if_pos (decide_eq_true hc)]
      rw [List.map_cons]
      exact congrArg _ ih
    · rw [show suryaLineAt l = none by
            show (if pyStrip l.text ≠ "" ∧ l.confidence > 1/2 then
              some ((l.bbox.y0 + l.bbox.y1) / 2, pyStrip l.text)
              else none) = _
            rw [if_neg hc],
        if_neg (fun hd => hc (of_decide_eq_true hd))]
      exact ih

/-- Claim C1 fails on the worker path: a whitespace-only line with
confidence 0.9 has empty trimmed text, yet it is kept (its text trimmed to
the empty string), because `ocr_worker.py` tests the raw text `if text and
confidence > 0.5` before trimming. -/
theorem claim_c1_counterexample :
    pyStrip "   " = "" ∧
    extractLines ["   "] [9/10] [] = [((0 : ℚ), "")] := by
  constructor
  · decide
  · norm_num [extractLines, lineAt, yKey, List.enum, List.filterMap_cons]
    decide

/-- Claim C1 (amended): in the worker structured path a line is kept iff its
raw, untrimmed text is nonempty and its confidence exceeds 0.5 (so a
whitespace-only line with high confidence survives, with its text trimmed to
empty); in the surya structured path a line is kept iff its trimmed text is
nonempty and its confidence exceeds 0.5.  In both paths the threshold is
strict: confidence exactly 0.5 is excluded, 0.51 is kept. -/
theorem claim_c1_amended (texts : List String) (scores : List ℚ)
    (boxes : List Bbox) (ls : List SuryaLine) :
    extractLines texts scores boxes =
      (texts.enum.filter fun p =>
        decide (p.2 ≠ "" ∧ scores.getD p.1 0 > 1/2)).map
        (fun p => (yKey boxes p.1, pyStrip p.2)) ∧
    suryaExtractLines ls =
      (ls.filter fun l =>
        decide (pyStrip l.text ≠ "" ∧ l.confidence > 1/2)).map
        (fun l => ((l.bbox.y0 + l.bbox.y1) / 2, pyStrip l.text)) ∧
    extractLines ["a", "b"] [1/2, 51/100] [] = [((10 : ℚ), "b")] ∧
    suryaExtractLines
        [⟨"c", 1/2, ⟨0, 0, 0, 2⟩⟩, ⟨"d", 51/100, ⟨0, 0, 0, 2⟩⟩] =
      [((1 : ℚ), "d")] :=
  ⟨extractLines_eq_filter_map texts scores boxes,
   suryaExtractLines_eq_filter_map ls,
   by
     norm_num [extractLines, lineAt, yKey, List.enum, List.filterMap_cons]
     decide,
   by
     norm_num [suryaExtractLines, suryaLineAt, List.filterMap_cons, pyStrip,
       stripChars]
     decide⟩

/-! ## Paragraph segmentation (C2) -/

/-- Join a chunk's texts with single spaces, as the loop does when closing a
paragraph. -/
def joinChunk (c : List (ℚ × String)) : String :=
  String.intercalate " " (c.map Prod.snd)

theorem gapSplit_cons_exists (gapT : ℚ) (a : ℚ × String)
    (rest : List (ℚ × String)) :
    ∃ c cs, gapSplit gapT (a :: rest) = c :: cs := by
  cases rest with
  | nil => exact ⟨[a], [], rfl⟩
  | cons b rest2 =>
    simp only [gapSplit]
    by_cases h : b.1 - a.1 > gapT
    · rw [if_pos h]; exact ⟨_, _, rfl⟩
    · rw [if_neg h]
      obtain ⟨c, cs, hsplit⟩ := gapSplit_cons_exists gapT b rest2
      rw [hsplit]
      exact ⟨_, _, rfl⟩

theorem groupAux_spec (gapT : ℚ) :
    ∀ (lines : List (ℚ × String)) (y0 : ℚ) (t0 : String)
      (pre paras : List String),
    groupAux gapT lines paras (pre ++ [t0]) (some y0) =
      paras ++
        (match gapSplit gapT ((y0, t0) :: lines) with
          | c :: cs =>
            String.intercalate " " (pre ++ c.map Prod.snd) :: cs.map joinChunk
          | [] => []) := by
  intro lines
  induction lines with
  | nil =>
    intro y0 t0 pre paras
    simp [groupAux, gapSplit]
  | cons l rest ih =>
    intro y0 t0 pre paras
    obtain ⟨y, t⟩ := l
    by_cases hgap : y - y0 > gapT
    · rw [show groupAux gapT ((y, t) :: rest) paras (pre ++ [t0]) (some y0) =
          groupAux gapT rest (paras ++ [String.intercalate " " (pre ++ [t0])])
            [t] (some y) by
        simp [groupAux, hgap]]
      rw [show ([t] : List String) = [] ++ [t] from rfl]
      rw [ih y t [] _]
      obtain ⟨c, cs, hsplit⟩ := gapSplit_cons_exists gapT (y, t) rest
      rw [show gapSplit gapT ((y0, t0) :: (y, t) :: rest) =
          [(y0, t0)] :: gapSplit gapT ((y, t) :: rest) by
        simp [gapSplit, hgap]]
      rw [hsplit]
      simp [joinChunk]
    · rw [show groupAux gapT ((y, t) :: rest) paras (pre ++ [t0]) (some y0) =
          groupAux gapT rest paras ((pre ++ [t0]) ++ [t]) (some y) by
        simp [groupAux, hgap]]
      rw [ih y t (pre ++ [t0]) paras]
      obtain ⟨c, cs, hsplit⟩ := gapSplit_cons_exists gapT (y, t) rest
      rw [show gapSplit gapT ((y0, t0) :: (y, t) :: rest) =
          ((y0, t0) :: c) :: cs by
        simp only [gapSplit]
        rw [if_neg hgap, hsplit]]
      rw [hsplit]
      simp

theorem groupParagraphs_eq_gapSplit (gapT : ℚ) (lines : List (ℚ × String)) :
    groupParagraphs gapT lines = (gapSplit gapT lines).map joinChunk := by
  cases lines with
  | nil => rfl
  | cons l rest =>
    obtain ⟨y, t⟩ := l
    rw [groupParagraphs,
      show groupAux gapT ((y, t) :: rest) [] [] none =
        groupAux gapT rest [] ([] ++ [t]) (some y) by simp [groupAux]]
    rw [groupAux_spec gapT rest y t [] []]
    obtain ⟨c, cs, hsplit⟩ := gapSplit_cons_exists gapT (y, t) rest
    rw [hsplit]
    simp [joinChunk]

/-- Claim C2: the imperative grouping loop closes the current paragraph
exactly at the positions where the vertical gap between consecutive sorted
lines exceeds the threshold — it equals splitting the sorted line list at
those positions and joining each chunk's texts with single spaces (the
trailing chunk included); the threshold used by the sources is 40, and at
centers 0, 10, 20, 70, 80 with threshold 40 the result is exactly the two
paragraphs grouping 0, 10, 20 and 70, 80. -/
theorem claim_c2_paragraph_segmentation (gapT : ℚ)
    (lines : List (ℚ × String)) :
    groupParagraphs gapT lines = (gapSplit gapT lines).map joinChunk ∧
    GAP_THRESHOLD = 40 ∧
    groupParagraphs GAP_THRESHOLD
        [(0, "a"), (10, "b"), (20, "c"), (70, "d"), (80, "e")] =
      ["a b c", "d e"] :=
  ⟨groupParagraphs_eq_gapSplit gapT lines, rfl, by
    norm_num [groupParagraphs, groupAux, GAP_THRESHOLD]
    decide⟩

/-! ## Vertical keys and the stable sort (C9) -/

theorem lineLe_trans (a b c : ℚ × String)
    (h1 : decide (a.1 ≤ b.1) = true) (h2 : decide (b.1 ≤ c.1) = true) :
    decide (a.1 ≤ c.1) = true :=
  decide_eq_true (le_trans (of_decide_eq_true h1) (of_decide_eq_true h2))

theorem lineLe_total (a b : ℚ × String) :
    (decide (a.1 ≤ b.1) || decide (b.1 ≤ a.1)) = true := by
  rcases le_total a.1 b.1 with h | h <;> simp [h]

theorem sortLines_perm (lines : List (ℚ × String)) :
    (sortLines lines).Perm lines :=
  List.mergeSort_perm lines _

theorem sortLines_sorted (lines : List (ℚ × String)) :
    (sortLines lines).Pairwise (fun a b => a.1 ≤ b.1) :=
  (List.sorted_mergeSort lineLe_trans lineLe_total lines).imp
    fun h => of_decide_eq_true h

theorem sortLines_stable (lines : List (ℚ × String)) (k : ℚ) :
    (sortLines lines).filter (fun l => decide (l.1 = k)) =
      lines.filter (fun l => decide (l.1 = k)) := by
  have hmemk : ∀ a ∈ lines.filter (fun l => decide (l.1 = k)), a.1 = k :=
    fun a ha => of_decide_eq_true (List.mem_filter.mp ha).2
  have hpw : (lines.filter (fun l => decide (l.1 = k))).Pairwise
      (fun a b => decide (a.1 ≤ b.1) = true) :=
    List.pairwise_of_forall_mem_list fun a ha b hb =>
      decide_eq_true (le_of_eq ((hmemk a ha).trans (hmemk b hb).symm))
  have hsub : (lines.filter (fun l => decide (l.1 = k))).Sublist
      (sortLines lines) :=
    List.sublist_mergeSort lineLe_trans lineLe_total hpw
      (List.filter_sublist lines)
  have hself : (lines.filter (fun l => decide (l.1 = k))).filter
      (fun l => decide (l.1 = k)) = lines.filter (fun l => decide (l.1 = k)) :=
    List.filter_eq_self.mpr fun a ha => (List.mem_filter.mp ha).2
  have hsub2 : (lines.filter (fun l => decide (l.1 = k))).Sublist
      ((sortLines lines).filter (fun l => decide (l.1 = k))) :=
    hself ▸ hsub.filter (fun l => decide (l.1 = k))
  have hlen : ((sortLines lines).filter (fun l => decide (l.1 = k))).length =
      (lines.filter (fun l => decide (l.1 = k))).length :=
    ((sortLines_perm lines).filter (fun l => decide (l.1 = k))).length_eq
  exact (hsub2.eq_of_length hlen.symm).symm

theorem mem_enumFrom_le {α : Type} :
    ∀ (n : ℕ) (l : List α) (q : ℕ × α), q ∈ List.enumFrom n l → n ≤ q.1 := by
  intro n l
  induction l generalizing n with
  | nil => intro q h; cases h
  | cons a l ih =>
    intro q h
    rcases List.mem_cons.mp h with h1 | h2
    · subst h1; exact le_refl n
    · exact le_trans (Nat.le_succ n) (ih (n + 1) q h2)

theorem pairwise_fst_lt_enumFrom {α : Type} :
    ∀ (n : ℕ) (l : List α),
      (List.enumFrom n l).Pairwise (fun p q => p.1 < q.1) := by
  intro n l
  induction l generalizing n with
  | nil => exact List.Pairwise.nil
  | cons a l ih =>
    refine List.pairwise_cons.mpr ⟨fun q hq => ?_, ih (n + 1)⟩
    exact lt_of_lt_of_le (Nat.lt_succ_self n) (mem_enumFrom_le (n + 1) l q hq)

theorem extractLines_nobox_sorted (texts : List String) (scores : List ℚ) :
    (extractLines texts scores []).Pairwise (fun a b => a.1 < b.1) := by
  rw [extractLines_eq_filter_map]
  rw [List.pairwise_map]
  refine (List.Pairwise.sublist (List.filter_sublist _)
      (pairwise_fst_lt_enumFrom 0 texts)).imp ?_
  intro p q h
  show yKey [] p.1 < yKey [] q.1
  show ((p.1 : ℚ)) * 10 < (q.1 : ℚ) * 10
  exact mul_lt_mul_of_pos_right (by exact_mod_cast h) (by norm_num)

theorem sortLines_nobox (texts : List String) (scores : List ℚ) :
    sortLines (extractLines texts scores []) = extractLines texts scores [] :=
  List.mergeSort_of_sorted
    ((extractLines_nobox_sorted texts scores).imp fun h =>
      decide_eq_true (le_of_lt h))

/-- Claim C9: the vertical key of a surviving line is the bbox center
`(y0 + y1) / 2` when the bbox exists and `originalIndex * 10` otherwise;
the sort is a stable ascending sort on that key: the output is a
permutation, sorted by key, lines of any fixed key keep their prior
relative order, and when no bboxes are present (all keys are fallback keys)
the emission order is preserved outright. -/
theorem claim_c9_vertical_key_stable_sort :
    (∀ (boxes : List Bbox) (i : ℕ) (b : Bbox), boxes[i]? = some b →
      yKey boxes i = (b.y0 + b.y1) / 2) ∧
    (∀ (boxes : List Bbox) (i : ℕ), boxes[i]? = none →
      yKey boxes i = (i : ℚ) * 10) ∧
    (∀ lines : List (ℚ × String), (sortLines lines).Perm lines) ∧
    (∀ lines : List (ℚ × String),
      (sortLines lines).Pairwise (fun a b => a.1 ≤ b.1)) ∧
    (∀ (lines : List (ℚ × String)) (k : ℚ),
      (sortLines lines).filter (fun l => decide (l.1 = k)) =
        lines.filter (fun l => decide (l.1 = k))) ∧
    (∀ (texts : List String) (scores : List ℚ),
      sortLines (extractLines texts scores []) =
        extractLines texts scores []) :=
  ⟨fun boxes i b h => by simp [yKey, h],
   fun boxes i h => by simp [yKey, h],
   sortLines_perm,
   sortLines_sorted,
   sortLines_stable,
   sortLines_nobox⟩

/-- Witness for C9: both key formulas at concrete inputs. -/
theorem claim_c9_vertical_key_stable_sort_witness :
    yKey [⟨0, 0, 0, 2⟩] 0 = ((0 : ℚ) + 2) / 2 ∧
    yKey [] 3 = (3 : ℚ) * 10 :=
  ⟨claim_c9_vertical_key_stable_sort.1 [⟨0, 0, 0, 2⟩] 0 ⟨0, 0, 0, 2⟩ rfl,
   claim_c9_vertical_key_stable_sort.2.1 [] 3 rfl⟩

/-! ## Resizing (C5) -/

theorem resize_small (cap w h : ℕ) (hle : max w h ≤ cap) :
    resize_image_if_needed cap w h = ((w, h), false) := by
  rw [resize_image_if_needed]
  simp only [if_pos hle]

theorem resize_large (cap w h : ℕ) (hlt : cap < max w h) :
    resize_image_if_needed cap w h =
      (((⌊(w : ℚ) * ((cap : ℚ) / ((max w h : ℕ) : ℚ))⌋).toNat,
        (⌊(h : ℚ) * ((cap : ℚ) / ((max w h : ℕ) : ℚ))⌋).toNat), true) := by
  rw [resize_image_if_needed]
  simp only [if_neg (not_le.mpr hlt)]

theorem scaled_side_eq_cap (cap m : ℕ) (hm : 0 < m) :
    (⌊(m : ℚ) * ((cap : ℚ) / (m : ℚ))⌋).toNat = cap := by
  have hmne : (m : ℚ) ≠ 0 := by exact_mod_cast hm.ne.symm
  rw [mul_comm, div_mul_cancel₀ _ hmne, Int.floor_natCast, Int.toNat_natCast]

theorem scaled_side_le_cap (cap m s : ℕ) (hm : 0 < m) (hsm : s ≤ m) :
    (⌊(s : ℚ) * ((cap : ℚ) / (m : ℚ))⌋).toNat ≤ cap := by
  have hmne : (m : ℚ) ≠ 0 := by exact_mod_cast hm.ne.symm
  have hσ : (0 : ℚ) ≤ (cap : ℚ) / (m : ℚ) := by positivity
  have hle : (s : ℚ) * ((cap : ℚ) / (m : ℚ)) ≤ cap := by
    calc (s : ℚ) * ((cap : ℚ) / (m : ℚ))
        ≤ (m : ℚ) * ((cap : ℚ) / (m : ℚ)) :=
          mul_le_mul_of_nonneg_right (by exact_mod_cast hsm) hσ
      _ = cap := by rw [mul_comm, div_mul_cancel₀ _ hmne]
  have h2 := Int.floor_le_floor hle
  rw [Int.floor_natCast] at h2
  have h3 := Int.toNat_le_toNat h2
  rwa [Int.toNat_natCast] at h3

theorem resize_max_eq_cap (cap w h : ℕ) (hlt : cap < max w h) :
    max (resize_image_if_needed cap w h).1.1
      (resize_image_if_needed cap w h).1.2 = cap := by
  rw [resize_large cap w h hlt]
  rcases le_total h w with hhw | hwh
  · rw [show max w h = w from max_eq_left hhw] at hlt ⊢
    have hw : 0 < w := lt_of_le_of_lt (Nat.zero_le cap) hlt
    simp only [scaled_side_eq_cap cap w hw]
    exact max_eq_left (scaled_side_le_cap cap w h hw hhw)
  · rw [show max w h = h from max_eq_right hwh] at hlt ⊢
    have hh : 0 < h := lt_of_le_of_lt (Nat.zero_le cap) hlt
    simp only [scaled_side_eq_cap cap h hh]
    exact max_eq_right (scaled_side_le_cap cap h w hh hwh)

theorem floor_toNat_bounds (x : ℚ) (hx : 0 ≤ x) :
    ((⌊x⌋.toNat : ℚ)) ≤ x ∧ x - 1 < ((⌊x⌋.toNat : ℚ)) := by
  have h0 : ((⌊x⌋.toNat : ℚ)) = ((⌊x⌋ : ℤ) : ℚ) := by
    exact_mod_cast congrArg (fun z : ℤ => (z : ℚ))
      (Int.toNat_of_nonneg (Int.floor_nonneg.mpr hx))
  rw [h0]
  exact ⟨Int.floor_le x, Int.sub_one_lt_floor x⟩

theorem qwen_ratio_eq (cap w h : ℕ) (hw : 0 < w) (hh : 0 < h) :
    min ((cap : ℚ) / (w : ℚ)) ((cap : ℚ) / (h : ℚ)) =
      (cap : ℚ) / ((max w h : ℕ) : ℚ) := by
  rcases le_total w h with hwh | hhw
  · rw [show max w h = h from max_eq_right hwh]
    refine min_eq_right ?_
    apply div_le_div_of_nonneg_left
    · positivity
    · exact_mod_cast hw
    · exact_mod_cast hwh
  · rw [show max w h = w from max_eq_left hhw]
    refine min_eq_left ?_
    apply div_le_div_of_nonneg_left
    · positivity
    · exact_mod_cast hh
    · exact_mod_cast hhw

theorem qwen_eq_worker (cap w h : ℕ) (hw : 0 < w) (hh : 0 < h) :
    qwen_resize_image_if_needed cap w h =
      (resize_image_if_needed cap w h).1 := by
  by_cases hcond : w ≤ cap ∧ h ≤ cap
  · rw [qwen_resize_image_if_needed, if_pos hcond,
      resize_small cap w h (max_le_iff.mpr hcond)]
  · have hlt : cap < max w h := by
      rcases Nat.lt_or_ge cap (max w h) with h1 | h2
      · exact h1
      · exact absurd (max_le_iff.mp h2) hcond
    rw [qwen_resize_image_if_needed, if_neg hcond,
      resize_large cap w h hlt, qwen_ratio_eq cap w h hw hh]

/-- Claim C5: below or at the cap the image is returned unchanged with
`resized = false`; above the cap the new dimensions are the floors of the
originals scaled by `cap / max(width, height)`, the larger result dimension
equals the cap exactly, each dimension is within one pixel below its exact
scaled value (so the aspect ratio is preserved within a pixel of rounding),
and the flag is `true`; the Qwen variant (guard on both sides, ratio
`min(cap/w, cap/h)`) computes the same dimensions for positive inputs.  The
caps used are `MAX_OCR_DIMENSION = 2200` and `MAX_IMAGE_SIZE = 1024`. -/
theorem claim_c5_resize (cap w h : ℕ) :
    (max w h ≤ cap → resize_image_if_needed cap w h = ((w, h), false)) ∧
    (cap < max w h →
      resize_image_if_needed cap w h =
        (((⌊(w : ℚ) * ((cap : ℚ) / ((max w h : ℕ) : ℚ))⌋).toNat,
          (⌊(h : ℚ) * ((cap : ℚ) / ((max w h : ℕ) : ℚ))⌋).toNat), true) ∧
      max (resize_image_if_needed cap w h).1.1
        (resize_image_if_needed cap w h).1.2 = cap ∧
      (((resize_image_if_needed cap w h).1.1 : ℚ) ≤
          (w : ℚ) * ((cap : ℚ) / ((max w h : ℕ) : ℚ)) ∧
        (w : ℚ) * ((cap : ℚ) / ((max w h : ℕ) : ℚ)) - 1 <
          ((resize_image_if_needed cap w h).1.1 : ℚ)) ∧
      (((resize_image_if_needed cap w h).1.2 : ℚ) ≤
          (h : ℚ) * ((cap : ℚ) / ((max w h : ℕ) : ℚ)) ∧
        (h : ℚ) * ((cap : ℚ) / ((max w h : ℕ) : ℚ)) - 1 <
          ((resize_image_if_needed cap w h).1.2 : ℚ))) ∧
    (0 < w → 0 < h →
      qwen_resize_image_if_needed cap w h =
        (resize_image_if_needed cap w h).1) ∧
    MAX_OCR_DIMENSION = 2200 ∧ MAX_IMAGE_SIZE = 1024 := by
  refine ⟨resize_small cap w h, fun hlt => ?_,
    qwen_eq_worker cap w h, rfl, rfl⟩
  have hxw : (0 : ℚ) ≤ (w : ℚ) * ((cap : ℚ) / ((max w h : ℕ) : ℚ)) := by
    positivity
  have hxh : (0 : ℚ) ≤ (h : ℚ) * ((cap : ℚ) / ((max w h : ℕ) : ℚ)) := by
    positivity
  refine ⟨resize_large cap w h hlt, resize_max_eq_cap cap w h hlt, ?_, ?_⟩
  · rw [resize_large cap w h hlt]
    exact floor_toNat_bounds _ hxw
  · rw [resize_large cap w h hlt]
    exact floor_toNat_bounds _ hxh

/-- Witness for C5 at concrete dimensions: 100 by 200 is untouched at cap
2200; 4400 by 2200 is scaled so its larger side equals the cap; the Qwen
variant agrees at 2048 by 1000 with cap 1024. -/
theorem claim_c5_resize_witness :
    (max 100 200 ≤ 2200 ∧
      resize_image_if_needed 2200 100 200 = ((100, 200), false)) ∧
    (2200 < max 4400 2200 ∧
      max (resize_image_if_needed 2200 4400 2200).1.1
        (resize_image_if_needed 2200 4400 2200).1.2 = 2200) ∧
    (0 < 2048 ∧ 0 < 1000 ∧
      qwen_resize_image_if_needed 1024 2048 1000 =
        (resize_image_if_needed 1024 2048 1000).1) :=
  ⟨⟨by decide, (claim_c5_resize 2200 100 200).1 (by decide)⟩,
   ⟨by decide, ((claim_c5_resize 2200 4400 2200).2.1 (by decide)).2.1⟩,
   ⟨by decide, by decide,
    (claim_c5_resize 1024 2048 1000).2.2.1 (by decide) (by decide)⟩⟩

/-! ## Free-text reconstruction is idempotent (C6) -/

theorem splitTwoNl_cons_ne (c : Char) (hc : c ≠ '\n') (rest : List Char) :
    splitTwoNl (c :: rest) = consFirst c (splitTwoNl rest) := by
  cases rest with
  | nil => simp [splitTwoNl, hc]
  | cons d r2 => simp [splitTwoNl, hc]

theorem splitTwoNl_ne_nil : ∀ s : List Char, splitTwoNl s ≠ [] := by
  intro s
  induction s with
  | nil => simp [splitTwoNl]
  | cons c rest ih =>
    by_cases hc : c = '\n'
    · subst hc
      cases rest with
      | nil => simp [splitTwoNl, consFirst]
      | cons d r2 =>
        by_cases hd : d = '\n'
        · subst hd; simp [splitTwoNl]
        · rw [show splitTwoNl ('\n' :: d :: r2) =
              consFirst '\n' (splitTwoNl (d :: r2)) by simp [splitTwoNl, hd]]
          cases h : splitTwoNl (d :: r2) with
          | nil => simp [consFirst]
          | cons a as => simp [consFirst]
    · rw [splitTwoNl_cons_ne c hc rest]
      cases h : splitTwoNl rest with
      | nil => simp [consFirst]
      | cons a as => simp [consFirst]

theorem splitTwoNl_no_nl : ∀ p : List Char, '\n' ∉ p → splitTwoNl p = [p] := by
  intro p
  induction p with
  | nil => intro h; rfl
  | cons c rest ih =>
    intro h
    have hc : c ≠ '\n' := fun he => h (he ▸ List.mem_cons_self c rest)
    have hrest : '\n' ∉ rest := fun hm => h (List.mem_cons_of_mem c hm)
    rw [splitTwoNl_cons_ne c hc rest, ih hrest]
    rfl

theorem splitTwoNl_sep : ∀ p t : List Char, '\n' ∉ p →
    splitTwoNl (p ++ '\n' :: '\n' :: t) = p :: splitTwoNl t := by
  intro p
  induction p with
  | nil => intro t h; simp [splitTwoNl]
  | cons c rest ih =>
    intro t h
    have hc : c ≠ '\n' := fun he => h (he ▸ List.mem_cons_self c rest)
    have hrest : '\n' ∉ rest := fun hm => h (List.mem_cons_of_mem c hm)
    rw [List.cons_append, splitTwoNl_cons_ne c hc, ih t hrest]
    rfl

theorem splitTwoNl_joinSep : ∀ ps : List (List Char), ps ≠ [] →
    (∀ p ∈ ps, '\n' ∉ p) →
    splitTwoNl (joinSep ['\n', '\n'] ps) = ps := by
  intro ps
  induction ps with
  | nil => intro h; exact absurd rfl h
  | cons p ps2 ih =>
    intro _ hmem
    cases ps2 with
    | nil =>
      exact splitTwoNl_no_nl p (hmem p (List.mem_cons_self p []))
    | cons q ps3 =>
      rw [show joinSep ['\n', '\n'] (p :: q :: ps3) =
          p ++ ['\n', '\n'] ++ joinSep ['\n', '\n'] (q :: ps3) from rfl]
      rw [List.append_assoc]
      rw [show (['\n', '\n'] ++ joinSep ['\n', '\n'] (q :: ps3)) =
          '\n' :: '\n' :: joinSep ['\n', '\n'] (q :: ps3) from rfl]
      rw [splitTwoNl_sep p _ (hmem p (List.mem_cons_self p _))]
      rw [ih (by simp) (fun r hr => hmem r (List.mem_cons_of_mem p hr))]

theorem splitOneNl_no_nl : ∀ p : List Char, '\n' ∉ p → splitOneNl p = [p] := by
  intro p
  induction p with
  | nil => intro h; rfl
  | cons c rest ih =>
    intro h
    have hc : c ≠ '\n' := fun he => h (he ▸ List.mem_cons_self c rest)
    have hrest : '\n' ∉ rest := fun hm => h (List.mem_cons_of_mem c hm)
    rw [show splitOneNl (c :: rest) = consFirst c (splitOneNl rest) by
      simp [splitOneNl, hc]]
    rw [ih hrest]
    rfl
theorem mem_consFirst (w : List Char) (c : Char) (l : List (List Char))
    (h : w ∈ consFirst c l) :
    (l = [] ∧ w = [c]) ∨
      ∃ v vs, l = v :: vs ∧ (w = c :: v ∨ w ∈ vs) := by
  cases l with
  | nil =>
    left
    refine ⟨rfl, ?_⟩
    simpa [consFirst] using h
  | cons v vs =>
    right
    refine ⟨v, vs, rfl, ?_⟩
    simpa [consFirst] using h

theorem pyWords_sound : ∀ s : List Char, ∀ w ∈ pyWords s,
    w ≠ [] ∧ ∀ c ∈ w, pySpace c = false := by
  intro s
  induction s with
  | nil => intro w hw; cases hw
  | cons c rest ih =>
    intro w hw
    by_cases hc : pySpace c
    · rw [show pyWords (c :: rest) = pyWords rest by simp [pyWords, hc]] at hw
      exact ih w hw
    · cases rest with
      | nil =>
        rw [show pyWords [c] = [[c]] by simp [pyWords, hc]] at hw
        rcases List.mem_singleton.mp hw with rfl
        refine ⟨by simp, ?_⟩
        intro x hx
        rcases List.mem_singleton.mp hx with rfl
        exact eq_false_of_ne_true fun ht => hc ht
      | cons d r2 =>
        by_cases hd : pySpace d
        · rw [show pyWords (c :: d :: r2) = [c] :: pyWords (d :: r2) by
            simp [pyWords, hc, hd]] at hw
          rcases List.mem_cons.mp hw with rfl | hw2
          · refine ⟨by simp, ?_⟩
            intro x hx
            rcases List.mem_singleton.mp hx with rfl
            exact eq_false_of_ne_true fun ht => hc ht
          · exact ih w hw2
        · rw [show pyWords (c :: d :: r2) = consFirst c (pyWords (d :: r2)) by
            simp [pyWords, hc, hd]] at hw
          rcases mem_consFirst w c _ hw with ⟨_, rfl⟩ | ⟨v, vs, hl, hcase⟩
          · refine ⟨by simp, ?_⟩
            intro x hx
            rcases List.mem_singleton.mp hx with rfl
            exact eq_false_of_ne_true fun ht => hc ht
          · rcases hcase with rfl | hw3
            · have hv := ih v (hl ▸ List.mem_cons_self v vs)
              refine ⟨by simp, ?_⟩
              intro x hx
              rcases List.mem_cons.mp hx with rfl | hx2
              · exact eq_false_of_ne_true fun ht => hc ht
              · exact hv.2 x hx2
            · exact ih w (hl ▸ List.mem_cons_of_mem v hw3)

theorem pyWords_word : ∀ w : List Char, w ≠ [] →
    (∀ c ∈ w, pySpace c = false) → pyWords w = [w] := by
  intro w
  induction w with
  | nil => intro h; exact absurd rfl h
  | cons c rest ih =>
    intro _ hns
    have hc : pySpace c = false := hns c (List.mem_cons_self c rest)
    cases rest with
    | nil => simp [pyWords, hc]
    | cons d r2 =>
      have hd : pySpace d = false :=
        hns d (List.mem_cons_of_mem c (List.mem_cons_self d r2))
      rw [show pyWords (c :: d :: r2) = consFirst c (pyWords (d :: r2)) by
        simp [pyWords, hc, hd]]
      rw [ih (by simp) (fun x hx => hns x (List.mem_cons_of_mem c hx))]
      rfl

theorem pyWords_word_sep : ∀ (w t : List Char), w ≠ [] →
    (∀ c ∈ w, pySpace c = false) →
    pyWords (w ++ ' ' :: t) = w :: pyWords t := by
  intro w
  induction w with
  | nil => intro t h; exact absurd rfl h
  | cons c rest ih =>
    intro t _ hns
    have hc : pySpace c = false := hns c (List.mem_cons_self c rest)
    cases rest with
    | nil =>
      rw [List.cons_append, List.nil_append]
      rw [show pyWords (c :: ' ' :: t) = [c] :: pyWords (' ' :: t) by
        simp [pyWords, hc, show pySpace ' ' = true from rfl]]
      rw [show pyWords (' ' :: t) = pyWords t by
        simp [pyWords, show pySpace ' ' = true from rfl]]
    | cons d r2 =>
      have hd : pySpace d = false :=
        hns d (List.mem_cons_of_mem c (List.mem_cons_self d r2))
      rw [List.cons_append]
      rw [show pyWords (c :: ((d :: r2) ++ ' ' :: t)) =
          consFirst c (pyWords ((d :: r2) ++ ' ' :: t)) by
        simp [pyWords, hc, hd]]
      rw [ih t (by simp) (fun x hx => hns x (List.mem_cons_of_mem c hx))]
      rfl

theorem pyWords_joinSep : ∀ ps : List (List Char), ps ≠ [] →
    (∀ w ∈ ps, w ≠ [] ∧ ∀ c ∈ w, pySpace c = false) →
    pyWords (joinSep [' '] ps) = ps := by
  intro ps
  induction ps with
  | nil => intro h; exact absurd rfl h
  | cons w ps2 ih =>
    intro _ hmem
    cases ps2 with
    | nil =>
      exact pyWords_word w (hmem w (List.mem_cons_self w [])).1
        (hmem w (List.mem_cons_self w [])).2
    | cons v ps3 =>
      rw [show joinSep [' '] (w :: v :: ps3) =
          w ++ [' '] ++ joinSep [' '] (v :: ps3) from rfl]
      rw [List.append_assoc]
      rw [show ([' '] ++ joinSep [' '] (v :: ps3)) =
          ' ' :: joinSep [' '] (v :: ps3) from rfl]
      rw [pyWords_word_sep w _ (hmem w (List.mem_cons_self w _)).1
        (hmem w (List.mem_cons_self w _)).2]
      rw [ih (by simp) (fun r hr => hmem r (List.mem_cons_of_mem w hr))]
theorem mem_joinSep : ∀ (sep : List Char) (ws : List (List Char)) (x : Char),
    x ∈ joinSep sep ws → (∃ w ∈ ws, x ∈ w) ∨ x ∈ sep := by
  intro sep ws
  induction ws with
  | nil => intro x hx; cases hx
  | cons w ws2 ih =>
    intro x hx
    cases ws2 with
    | nil =>
      left
      exact ⟨w, List.mem_cons_self w [], hx⟩
    | cons v ws3 =>
      rw [show joinSep sep (w :: v :: ws3) =
          w ++ sep ++ joinSep sep (v :: ws3) from rfl] at hx
      rcases List.mem_append.mp hx with hx1 | hx2
      · rcases List.mem_append.mp hx1 with hxw | hxs
        · exact Or.inl ⟨w, List.mem_cons_self w _, hxw⟩
        · exact Or.inr hxs
      · rcases ih x hx2 with ⟨v2, hv2, hxv⟩ | hxs
        · exact Or.inl ⟨v2, List.mem_cons_of_mem w hv2, hxv⟩
        · exact Or.inr hxs

theorem nl_not_mem_normalizeFrag (p : List Char) :
    '\n' ∉ normalizeFrag p := by
  intro hmem
  rcases mem_joinSep [' '] (pyWords p) '\n' hmem with ⟨w, hw, hnw⟩ | hs
  · have := (pyWords_sound p w hw).2 '\n' hnw
    simp [pySpace] at this
  · simp at hs

theorem normalizeFrag_idem (p : List Char) :
    normalizeFrag (normalizeFrag p) = normalizeFrag p := by
  rw [normalizeFrag, normalizeFrag]
  cases hw : pyWords p with
  | nil => simp [joinSep, pyWords]
  | cons w ws =>
    rw [← hw]
    rw [pyWords_joinSep (pyWords p) (by rw [hw]; simp)
      (pyWords_sound p)]

theorem mem_cleanFragments (q : List Char) (raws : List (List Char))
    (h : q ∈ cleanFragments raws) :
    (∃ p ∈ raws, q = normalizeFrag p) ∧ q ≠ [] := by
  rw [cleanFragments] at h
  have h1 := List.mem_filter.mp h
  rcases List.mem_map.mp h1.1 with ⟨p, hp, hq⟩
  exact ⟨⟨p, hp, hq.symm⟩, by simpa using h1.2⟩

theorem cleanFragments_of_clean (ps : List (List Char))
    (h : ∀ q ∈ ps, normalizeFrag q = q ∧ q ≠ []) :
    cleanFragments ps = ps := by
  rw [cleanFragments]
  rw [show ps.map normalizeFrag = ps.map id from
    List.map_congr_left fun q hq => (h q hq).1]
  rw [List.map_id]
  exact List.filter_eq_self.mpr fun q hq => by
    simpa using (h q hq).2

/-- Claim C6: the free-text reconstruction of the Qwen engine — split on
the blank-line separator, re-split on single newlines when that yields one
fragment, collapse whitespace runs to single spaces, trim, drop empty
fragments, rejoin with the blank-line separator — is idempotent: applied to
its own full-text output it returns the identical full text and the
identical paragraph list. -/
theorem claim_c6_freetext_idempotent (s : List Char) :
    reconstructFreeText (reconstructFreeText s).1 = reconstructFreeText s := by
  have hq : ∀ q ∈ cleanFragments (rawFragments s),
      normalizeFrag q = q ∧ q ≠ [] ∧ '\n' ∉ q := by
    intro q hmem
    rcases mem_cleanFragments q _ hmem with ⟨⟨p, _, rfl⟩, hne⟩
    exact ⟨normalizeFrag_idem p, hne, nl_not_mem_normalizeFrag p⟩
  rw [show reconstructFreeText s =
      (joinSep ['\n', '\n'] (cleanFragments (rawFragments s)),
        cleanFragments (rawFragments s)) from rfl]
  cases hps : cleanFragments (rawFragments s) with
  | nil =>
    show reconstructFreeText [] = _
    rw [show reconstructFreeText [] = (joinSep ['\n', '\n']
        (cleanFragments (rawFragments [])), cleanFragments (rawFragments []))
        from rfl]
    rw [show rawFragments [] = [[]] from rfl]
    rfl
  | cons q1 qs =>
    have hq1 := hq q1 (hps ▸ List.mem_cons_self q1 qs)
    cases qs with
    | nil =>
      show reconstructFreeText q1 = (joinSep ['\n', '\n'] [q1], [q1])
      rw [show joinSep ['\n', '\n'] [q1] = q1 from rfl]
      rw [show reconstructFreeText q1 = (joinSep ['\n', '\n']
          (cleanFragments (rawFragments q1)),
          cleanFragments (rawFragments q1)) from rfl]
      have hraw : rawFragments q1 = [q1] := by
        rw [rawFragments]
        rw [splitTwoNl_no_nl q1 hq1.2.2]
        simp only [List.length_singleton, if_pos rfl]
        exact splitOneNl_no_nl q1 hq1.2.2
      rw [hraw]
      rw [cleanFragments_of_clean [q1] (fun q hq2 => by
        rcases List.mem_singleton.mp hq2 with rfl
        exact ⟨hq1.1, hq1.2.1⟩)]
      rfl
    | cons q2 qs2 =>
      show reconstructFreeText (joinSep ['\n', '\n'] (q1 :: q2 :: qs2)) = _
      rw [show ∀ t : List Char, reconstructFreeText t = (joinSep ['\n', '\n']
          (cleanFragments (rawFragments t)),
          cleanFragments (rawFragments t)) from fun t => rfl]
      have hnomem : ∀ p ∈ q1 :: q2 :: qs2, '\n' ∉ p := by
        intro p hp
        exact (hq p (hps ▸ hp)).2.2
      have hsplit : splitTwoNl (joinSep ['\n', '\n'] (q1 :: q2 :: qs2)) =
          q1 :: q2 :: qs2 :=
        splitTwoNl_joinSep _ (by simp) hnomem
      have hraw : rawFragments (joinSep ['\n', '\n'] (q1 :: q2 :: qs2)) =
          q1 :: q2 :: qs2 := by
        rw [rawFragments, hsplit]
        simp
      rw [hraw]
      rw [cleanFragments_of_clean (q1 :: q2 :: qs2) (fun q hq2 => by
        have := hq q (hps ▸ hq2)
        exact ⟨this.1, this.2.1⟩)]

end BookToNote
